import Mathlib

/-!
Verification of the stanza log-ingestion pipeline components:
the Entry/Field data model, the retain transform operator, the stdin input
operator, and the TCP input operator's build/scan behavior.

Go values of type `map[string]interface{}` are unordered maps with unique
string keys; we canonicalize them as association lists strictly sorted by
key, so that Lean equality of the model coincides with Go map equality.
-/

namespace OTelStanza

/-- Modelled from the spec: the structurally-typed value stored in an
Entry's Body/Attributes/Resource (the entry package is not in src/) —
a scalar (string or integer), an ordered sequence, or a mapping from
string keys to nested values. Mappings are canonicalized as key-sorted
association lists. -/
inductive Value where
  | str : String → Value
  | int : Int → Value
  | seq : List Value → Value
  | map : List (String × Value) → Value

/-- Lexicographic strict order on character lists by character code, used
only to canonicalize the unordered Go maps as sorted lists. -/
def charsLt : List Char → List Char → Bool
  | _, [] => false
  | [], _ :: _ => true
  | a :: as, b :: bs =>
    if a.toNat < b.toNat then true
    else if b.toNat < a.toNat then false
    else charsLt as bs

/-- Lexicographic strict order on keys. -/
def keyLt (a b : String) : Bool := charsLt a.toList b.toList

/-- Lookup of a key in an association list (the model of Go map indexing). -/
def lookupV (k : String) : List (String × Value) → Option Value
  | [] => none
  | (k₂, v) :: rest => if k₂ = k then some v else lookupV k rest

/-- Insert-or-replace of a key into a key-sorted association list
(the model of a Go map assignment, keeping the canonical order). -/
def insertV (k : String) (v : Value) : List (String × Value) → List (String × Value)
  | [] => [(k, v)]
  | (k₂, v₂) :: rest =>
    if k = k₂ then (k, v) :: rest
    else if keyLt k k₂ then (k, v) :: (k₂, v₂) :: rest
    else (k₂, v₂) :: insertV k v rest

/-- Modelled from the spec: Field path resolution Get (entry/field code is
not in src/) — traverse the key path from the root; a missing key or a
non-mapping intermediate node yields not-found. -/
def getPath : Value → List String → Option Value
  | v, [] => some v
  | v, k :: rest =>
    match v with
    | Value.map l =>
      match lookupV k l with
      | some c => getPath c rest
      | none => none
    | _ => none

/-- Child of a mapping at a key, defaulting to an empty mapping when absent
(the intermediate node created by Set). -/
def childAt (l : List (String × Value)) (k : String) : Value :=
  match lookupV k l with
  | some c => c
  | none => Value.map []

/-- Modelled from the spec: Field path resolution Set (entry/field code is
not in src/) — traverse the key path from the root, creating intermediate
nodes as mappings if absent (a non-mapping intermediate is replaced by a
fresh mapping), and write the value at the end of the path. -/
def setPath : Value → List String → Value → Value
  | _, [], v => v
  | d, k :: rest, v =>
    match d with
    | Value.map l => Value.map (insertV k (setPath (childAt l k) rest v) l)
    | _ => Value.map (insertV k (setPath (Value.map []) rest v) [])

/-- Keys of an association list are in strictly ascending order. -/
def keysSorted : List (String × Value) → Bool
  | [] => true
  | [_] => true
  | (k₁, _) :: (k₂, v₂) :: rest =>
    keyLt k₁ k₂ && keysSorted ((k₂, v₂) :: rest)

mutual

/-- Well-formedness of a value: every mapping in it is strictly key-sorted
(the canonical-form invariant every Go map satisfies in this model). -/
def Value.wf : Value → Bool
  | .str _ => true
  | .int _ => true
  | .seq l => wfSeq l
  | .map l => keysSorted l && wfPairs l

/-- Well-formedness of every element of a sequence. -/
def wfSeq : List Value → Bool
  | [] => true
  | v :: rest => v.wf && wfSeq rest

/-- Well-formedness of every value of an association list. -/
def wfPairs : List (String × Value) → Bool
  | [] => true
  | (_, v) :: rest => v.wf && wfPairs rest

end

/-- The three structured sections of an Entry addressed by a Field. -/
inductive EntrySection where
  | body
  | attributes
  | resource
deriving DecidableEq

/-- Modelled from the spec: the Entry record (the entry package is not in
src/) — timestamps plus three independently-nilable structured sections. -/
structure Entry where
  timestamp : Int
  observedTimestamp : Int
  body : Option Value
  attributes : Option Value
  resource : Option Value

/-- Modelled from the spec: a Field — an address into one of the Entry's
three sections plus an ordered sequence of keys into nested mappings. -/
structure Field where
  sec : EntrySection
  keys : List String

/-- Read one section of an Entry. -/
def Entry.getSection (e : Entry) : EntrySection → Option Value
  | .body => e.body
  | .attributes => e.attributes
  | .resource => e.resource

/-- Get at a path inside a possibly-nil section; a nil section has no paths. -/
def getOpt (src : Option Value) (p : List String) : Option Value :=
  match src with
  | some s => getPath s p
  | none => none

/-- Modelled from the spec: one step of the retain algorithm (retain.go is
not in src/) — locate the configured path in the source section; if absent,
skip with no error; if present, write the value into the destination at the
same path, creating intermediate mappings as needed and merging with values
already written by other configured paths. -/
def retainStep (src : Option Value) (d : Option Value) (p : List String) : Option Value :=
  match getOpt src p with
  | some v => some (setPath (d.getD (Value.map [])) p v)
  | none => d

/-- Modelled from the spec: the retain algorithm for one section (retain.go
is not in src/) — starting from an empty destination, process the configured
paths in declared order; if every configured path missed, the section
becomes nil. -/
def retainSection (paths : List (List String)) (src : Option Value) : Option Value :=
  paths.foldl (retainStep src) none

/-- Configured key paths of the Fields addressing one given section,
in declared order. -/
def pathsFor (fields : List Field) (s : EntrySection) : List (List String) :=
  (fields.filter (fun f => decide (f.sec = s))).map Field.keys

/-- Result of the retain transform on one section: a section with no
configured Field is left untouched; otherwise it is rebuilt from its
configured paths. -/
def retainSectionOf (fields : List Field) (s : EntrySection) (src : Option Value) : Option Value :=
  if pathsFor fields s = [] then src else retainSection (pathsFor fields s) src

/-- Modelled from the spec: the retain transform on a whole Entry (retain.go
is not in src/) — each of Body/Attributes/Resource keeps its configured
subset, or stays as-is when no Field is configured for it; timestamps are
not touched. -/
def retainTransform (fields : List Field) (e : Entry) : Entry :=
  { e with
    body := retainSectionOf fields .body e.body
    attributes := retainSectionOf fields .attributes e.attributes
    resource := retainSectionOf fields .resource e.resource }

/-- Modelled from the spec: Process of the retain operator (retain.go is not
in src/) — the transform has no inherent error condition; it always succeeds
on a well-formed Entry. -/
def retainProcess (fields : List Field) (e : Entry) : Except String Entry :=
  Except.ok (retainTransform fields e)

/-- Well-formedness of an Entry: each non-nil section is a well-formed value. -/
def Entry.wf (e : Entry) : Bool :=
  (e.body.getD (Value.map [])).wf &&
    (e.attributes.getD (Value.map [])).wf && (e.resource.getD (Value.map [])).wf

/-- Modelled from the spec: entry.New (the entry package is not in src/) —
an Entry with ObservedTimestamp set to the current time, zero Timestamp and
all three sections nil. `now` stands for the current wall-clock time. -/
def newEntry (now : Int) : Entry :=
  { timestamp := 0, observedTimestamp := now, body := none,
    attributes := none, resource := none }

/-- An Entry holding one scanned line: entry.New followed by assigning the
line text to Body (stdin.go lines 103-104, and likewise for TCP lines). -/
def lineEntry (now : Int) (s : String) : Entry :=
  { newEntry now with body := some (Value.str s) }

namespace Stdin

/-- Outcome of the os.File.Stat call on stdin (stdin.go line 73): a failure
with an error message, or a file mode telling whether stdin is a named pipe. -/
inductive StatResult where
  | statError : String → StatResult
  | stat : (isNamedPipe : Bool) → StatResult

/-- State of the stdin input operator (stdin.go): whether the cancel
function has been assigned (g.cancel is nil until Start assigns it),
whether the scanning goroutine was launched, and the warnings logged. -/
structure Input where
  cancelAssigned : Bool
  goroutineLaunched : Bool
  warnings : List String

/-- The Input operator as returned by Config.Build (stdin.go lines 48-58):
the wait group, cancel function and goroutine state are all zero-valued. -/
def build : Input :=
  { cancelAssigned := false, goroutineLaunched := false, warnings := [] }

/-- Input.Start (stdin.go lines 69-110): create the cancellable context and
assign g.cancel first; then stat stdin, returning a wrapped error on a stat
failure; when stdin is not a named pipe, log a warning and return nil
without launching anything; otherwise launch the scanning goroutine and
return nil. -/
def start (g : Input) (st : StatResult) : Input × Except String Unit :=
  let g₁ : Input := { g with cancelAssigned := true }
  match st with
  | .statError msg => (g₁, Except.error (("failed to stat stdin: ") ++ msg))
  | .stat false =>
    ({ g₁ with warnings := g₁.warnings ++ [("No data is being written to stdin")] },
      Except.ok ())
  | .stat true => ({ g₁ with goroutineLaunched := true }, Except.ok ())

/-- Entries produced by the operator (stdin.go lines 86-107): the scanning
goroutine writes one Entry per scanned line with the line text as Body;
when no goroutine was launched, no Entries are ever produced. -/
def entries (g : Input) (now : Int) (lines : List String) : List Entry :=
  if g.goroutineLaunched then lines.map (lineEntry now) else []

/-- Outcome of Input.Stop (stdin.go lines 113-117): the body is g.cancel();
g.wg.Wait(); return nil. Calling a nil context.CancelFunc is a nil-function
call, which panics in Go, and g.cancel stays nil until Start assigns it. -/
inductive StopOutcome where
  | returnsNil
  | panicNilCancel
deriving DecidableEq

/-- Input.Stop (stdin.go lines 113-117). Stop does not reassign g.cancel,
so its outcome is the same however many times it is called. -/
def stop (g : Input) : StopOutcome :=
  if g.cancelAssigned then StopOutcome.returnsNil else StopOutcome.panicNilCancel

end Stdin

namespace TCP

/-- TLS server settings of the TCP input configuration: the certificate
file and key file paths (spec section 6). -/
structure TLSConfig where
  certFile : String
  keyFile : String

/-- Modelled from the spec: the TCP input configuration surface (tcp.go is
not in src/) — listen address, maximum log size (zero means the
implementation default, a negative value is a configuration error),
and optional TLS server settings. -/
structure Config where
  listenAddress : String
  maxLogSize : Int
  tls : Option TLSConfig

/-- The built TCP input operator (only what the claims here need). -/
structure Input where
  maxLogSize : Int

/-- Modelled from the spec: Config.Build of the TCP input (tcp.go is not in
src/) — validate the configuration and construct the operator, rejecting a
negative max log size with an error. The point at which TLS files are
loaded is pinned by the in-source test TestBuild, whose case
tls-enabled-with-no-such-file-error expects Build, not Start, to return the
error: when TLS is configured and the certificate or key file does not
exist, Build returns the load error and never panics. `fileExists` stands
for the filesystem seen by the process. -/
def build (c : Config) (fileExists : String → Bool) : Except String Input :=
  if c.maxLogSize < 0 then
    Except.error ("invalid value for parameter max_log_size: must be a nonnegative integer")
  else
    match c.tls with
    | some t =>
      if fileExists t.certFile && fileExists t.keyFile then
        Except.ok { maxLogSize := c.maxLogSize }
      else
        Except.error ("failed to load tls config: open file: no such file or directory")
    | none => Except.ok { maxLogSize := c.maxLogSize }

/-- Strip one trailing carriage return from a scanned token (the dropCR
step of bufio.ScanLines, which the spec's line scanner follows: both bare
newline and carriage-return/newline termination are supported, with the
terminator stripped). -/
def dropCR (l : List Char) : List Char :=
  match l.getLast? with
  | some c => if c = ('\r') then l.dropLast else l
  | none => l

/-- Modelled from the spec: the line scanner of one accepted TCP connection
(tcp.go is not in src/) — newline-delimited records with the terminator
stripped; bytes after the last newline stay buffered while the connection
is open. `acc` holds the current incomplete line, in reverse. -/
def scanAux : List Char → List Char → List (List Char)
  | [], _ => []
  | c :: rest, acc =>
    if c = ('\n') then dropCR acc.reverse :: scanAux rest []
    else scanAux rest (c :: acc)

/-- Bodies of the records scanned from the bytes received so far on one
accepted connection, in read order. -/
def recordsOf (input : String) : List String :=
  (scanAux input.toList []).map List.asString

/-- Entries produced from the bytes received so far on one accepted
connection: one Entry per scanned record, whose Body is the record text. -/
def entries (now : Int) (input : String) : List Entry :=
  (recordsOf input).map (lineEntry now)

end TCP

end OTelStanza

namespace OTelStanza

/-- Characters with equal codes are equal. -/
theorem char_eq_of_toNat_eq {a b : Char} (h : a.toNat = b.toNat) : a = b :=
  Char.ext (UInt32.toNat.inj h)

/-- The key order is irreflexive. -/
theorem charsLt_irrefl : ∀ l, charsLt l l = false
  | [] => rfl
  | a :: as => by simp [charsLt, charsLt_irrefl as]

/-- The key order is asymmetric. -/
theorem charsLt_asymm : ∀ a b, charsLt a b = true → charsLt b a = false
  | [], [] => by simp [charsLt]
  | [], _ :: _ => by intro _; rfl
  | _ :: _, [] => by simp [charsLt]
  | x :: xs, y :: ys => by
    intro h
    simp only [charsLt] at h ⊢
    by_cases h₁ : x.toNat < y.toNat
    · have h₂ : ¬ y.toNat < x.toNat := Nat.lt_asymm h₁
      simp [h₁, h₂]
    · by_cases h₂ : y.toNat < x.toNat
      · simp [h₁, h₂] at h
      · simp only [h₁, h₂, if_false, if_neg] at h ⊢
        exact charsLt_asymm xs ys h

/-- The key order is transitive. -/
theorem charsLt_trans : ∀ a b c, charsLt a b = true → charsLt b c = true → charsLt a c = true
  | _, [], _ => by simp [charsLt]
  | _, _ :: _, [] => by intro _ h; simp [charsLt] at h
  | [], _ :: _, _ :: _ => by intro _ _; rfl
  | x :: xs, y :: ys, z :: zs => by
    intro h₁ h₂
    simp only [charsLt] at h₁ h₂ ⊢
    by_cases hxy : x.toNat < y.toNat
    · by_cases hyz : y.toNat < z.toNat
      · simp [Nat.lt_trans hxy hyz]
      · by_cases hzy : z.toNat < y.toNat
        · simp [hyz, hzy] at h₂
        · have hyznat : y.toNat = z.toNat := Nat.le_antisymm (Nat.le_of_not_lt hzy) (Nat.le_of_not_lt hyz)
          simp [hyznat ▸ hxy]
    · by_cases hyx : y.toNat < x.toNat
      · simp [hxy, hyx] at h₁
      · have hxynat : x.toNat = y.toNat := Nat.le_antisymm (Nat.le_of_not_lt hyx) (Nat.le_of_not_lt hxy)
        simp only [hxy, hyx, if_neg, if_false] at h₁
        by_cases hyz : y.toNat < z.toNat
        · simp [hxynat ▸ hyz]
        · by_cases hzy : z.toNat < y.toNat
          · simp [hyz, hzy] at h₂
          · simp only [hyz, hzy, if_neg, if_false] at h₂
            have hxz : ¬ x.toNat < z.toNat := hxynat ▸ hyz
            have hzx : ¬ z.toNat < x.toNat := hxynat ▸ hzy
            simp only [hxz, hzx, if_neg, if_false]
            exact charsLt_trans xs ys zs h₁ h₂

/-- Lists unordered in both directions are equal. -/
theorem charsLt_eq_of_not : ∀ a b, charsLt a b = false → charsLt b a = false → a = b
  | [], [] => by intro _ _; rfl
  | [], _ :: _ => by simp [charsLt]
  | _ :: _, [] => by intro _; simp [charsLt]
  | x :: xs, y :: ys => by
    intro h₁ h₂
    simp only [charsLt] at h₁ h₂
    by_cases hxy : x.toNat < y.toNat
    · simp [hxy] at h₁
    · by_cases hyx : y.toNat < x.toNat
      · simp [hyx] at h₂
      · simp only [hxy, hyx, if_neg, if_false] at h₁ h₂
        have hc : x = y :=
          char_eq_of_toNat_eq (Nat.le_antisymm (Nat.le_of_not_lt hyx) (Nat.le_of_not_lt hxy))
        rw [hc, charsLt_eq_of_not xs ys h₁ h₂]

/-- The key order on strings is irreflexive. -/
theorem keyLt_irrefl (a : String) : keyLt a a = false := charsLt_irrefl _

/-- The key order on strings is asymmetric. -/
theorem keyLt_asymm {a b : String} (h : keyLt a b = true) : keyLt b a = false :=
  charsLt_asymm _ _ h

/-- The key order on strings is transitive. -/
theorem keyLt_trans {a b c : String} (h₁ : keyLt a b = true) (h₂ : keyLt b c = true) :
    keyLt a c = true :=
  charsLt_trans _ _ _ h₁ h₂

/-- Strings unordered in both directions are equal. -/
theorem keyLt_eq_of_not {a b : String} (h₁ : keyLt a b = false) (h₂ : keyLt b a = false) :
    a = b :=
  String.toList_inj.mp (charsLt_eq_of_not _ _ h₁ h₂)

/-- Exactly one of equality and the two strict orders holds. -/
theorem keyLt_total (a b : String) (h : a ≠ b) : keyLt a b = true ∨ keyLt b a = true := by
  by_cases h₁ : keyLt a b = true
  · exact Or.inl h₁
  · by_cases h₂ : keyLt b a = true
    · exact Or.inr h₂
    · exact absurd (keyLt_eq_of_not (Bool.eq_false_iff.mpr h₁) (Bool.eq_false_iff.mpr h₂)) h

/-- Strictly ordered keys are distinct. -/
theorem keyLt_ne {a b : String} (h : keyLt a b = true) : a ≠ b := by
  intro he
  rw [he, keyLt_irrefl] at h
  exact Bool.false_ne_true h

/-- Looking up the key just inserted finds the inserted value. -/
theorem lookupV_insertV_self (k : String) (v : Value) :
    ∀ l, lookupV k (insertV k v l) = some v
  | [] => by simp [insertV, lookupV]
  | (k₂, v₂) :: rest => by
    by_cases h : k = k₂
    · simp [insertV, h, lookupV]
    · by_cases h₂ : keyLt k k₂ = true
      · simp [insertV, h, h₂, lookupV]
      · simp [insertV, h, h₂, lookupV, Ne.symm h, lookupV_insertV_self k v rest]

/-- Looking up a key is unaffected by an insert at a different key. -/
theorem lookupV_insertV_ne {k k₂ : String} (h : k ≠ k₂) (v : Value) :
    ∀ l, lookupV k (insertV k₂ v l) = lookupV k l
  | [] => by simp [insertV, lookupV, Ne.symm h]
  | (k₃, v₃) :: rest => by
    by_cases h₁ : k₂ = k₃
    · subst h₁
      simp [insertV, lookupV, Ne.symm h]
    · by_cases h₂ : keyLt k₂ k₃ = true
      · simp [insertV, h₁, h₂, lookupV, Ne.symm h]
      · simp [insertV, h₁, h₂, lookupV, lookupV_insertV_ne h v rest]

/-- Inserting at a key twice keeps only the last value. -/
theorem insertV_insertV_self (k : String) (v w : Value) :
    ∀ l, insertV k v (insertV k w l) = insertV k v l
  | [] => by simp [insertV]
  | (k₂, v₂) :: rest => by
    by_cases h : k = k₂
    · simp [insertV, h]
    · by_cases h₂ : keyLt k k₂ = true
      · simp [insertV, h, h₂]
      · simp [insertV, h, h₂, insertV_insertV_self k v w rest]

/-- Inserts at two different keys commute. -/
theorem insertV_comm {a b : String} (h : a ≠ b) (va vb : Value) :
    ∀ l, insertV a va (insertV b vb l) = insertV b vb (insertV a va l)
  | [] => by
    rcases keyLt_total a b h with hab | hba
    · simp [insertV, h, Ne.symm h, hab, keyLt_asymm hab]
    · simp [insertV, h, Ne.symm h, hba, keyLt_asymm hba]
  | (k₂, v₂) :: rest => by
    by_cases hbk : b = k₂
    · subst hbk
      rcases keyLt_total a b h with hab | hba
      · simp [insertV, h, Ne.symm h, hab, keyLt_asymm hab]
      · simp [insertV, h, Ne.symm h, hba, keyLt_asymm hba]
    · by_cases hbk₂ : keyLt b k₂ = true
      · rcases keyLt_total a b h with hab | hba
        · have hak : keyLt a k₂ = true := keyLt_trans hab hbk₂
          simp [insertV, h, Ne.symm h, hab, keyLt_asymm hab, hbk, hbk₂, hak, keyLt_ne hak]
        · by_cases hak : a = k₂
          · subst hak
            simp [insertV, h, Ne.symm h, hba, keyLt_asymm hba, hbk, hbk₂]
          · by_cases hak₂ : keyLt a k₂ = true
            · simp [insertV, h, Ne.symm h, hba, keyLt_asymm hba, hbk, hbk₂, hak, hak₂]
            · simp [insertV, h, Ne.symm h, hba, keyLt_asymm hba, hbk, hbk₂, hak, hak₂]
      · have hkb : keyLt k₂ b = true :=
          (keyLt_total b k₂ hbk).resolve_left hbk₂
        by_cases hak : a = k₂
        · have hba : keyLt b a = false := hak ▸ (keyLt_asymm hkb)
          simp [insertV, hbk, hbk₂, hak, Ne.symm h, hba]
        · by_cases hak₂ : keyLt a k₂ = true
          · have hab : keyLt a b = true := keyLt_trans hak₂ hkb
            simp [insertV, hbk, hbk₂, hak, hak₂, Ne.symm h, keyLt_asymm hab]
          · simp [insertV, hbk, hbk₂, hak, hak₂, insertV_comm h va vb rest]

/-- The child at a key just inserted is the inserted value. -/
theorem childAt_insertV_self (k : String) (v : Value) (l : List (String × Value)) :
    childAt (insertV k v l) k = v := by
  simp [childAt, lookupV_insertV_self]

/-- The child at a key is unaffected by an insert at a different key. -/
theorem childAt_insertV_ne {k k₂ : String} (h : k ≠ k₂) (v : Value)
    (l : List (String × Value)) : childAt (insertV k₂ v l) k = childAt l k := by
  simp [childAt, lookupV_insertV_ne h]

/-- The child at a key present in the list is the value found there. -/
theorem childAt_eq_of_lookup {k : String} {l : List (String × Value)} {c : Value}
    (h : lookupV k l = some c) : childAt l k = c := by
  simp [childAt, h]

/-- Reading a concatenated path reads in two stages. -/
theorem getPath_append : ∀ (p : List String) (v : Value) (q : List String),
    getPath v (p ++ q) = (getPath v p).bind (fun w => getPath w q)
  | [], _, _ => rfl
  | k :: rest, v, q => by
    cases v with
    | map l =>
      cases hl : lookupV k l with
      | some c => simp [getPath, hl, getPath_append rest c q]
      | none => simp [getPath, hl]
    | str s => rfl
    | int n => rfl
    | seq l => rfl

/-- Reading below a freshly set path reads inside the written value. -/
theorem getPath_setPath_append : ∀ (p : List String) (d v : Value) (q : List String),
    getPath (setPath d p v) (p ++ q) = getPath v q
  | [], _, _, _ => rfl
  | k :: rest, d, v, q => by
    cases d with
    | map l =>
      simp [setPath, getPath, lookupV_insertV_self, getPath_setPath_append rest (childAt l k) v q]
    | str s =>
      simp [setPath, getPath, lookupV_insertV_self, getPath_setPath_append rest (Value.map []) v q]
    | int n =>
      simp [setPath, getPath, lookupV_insertV_self, getPath_setPath_append rest (Value.map []) v q]
    | seq l =>
      simp [setPath, getPath, lookupV_insertV_self, getPath_setPath_append rest (Value.map []) v q]

/-- Reading at a freshly set path finds the written value. -/
theorem getPath_setPath_self (p : List String) (d v : Value) :
    getPath (setPath d p v) p = some v := by
  have h := getPath_setPath_append p d v []
  simpa using h

/-- Setting at a path wholly overrides an earlier set at an extension of it. -/
theorem setPath_override : ∀ (p : List String) (d : Value) (q : List String) (v w : Value),
    setPath (setPath d (p ++ q) w) p v = setPath d p v
  | [], _, _, _, _ => rfl
  | k :: rest, d, q, v, w => by
    cases d with
    | map l =>
      simp [setPath, childAt_insertV_self, insertV_insertV_self,
        setPath_override rest (childAt l k) q v w]
    | str s =>
      simp [setPath, childAt_insertV_self, insertV_insertV_self,
        setPath_override rest (Value.map []) q v w]
    | int n =>
      simp [setPath, childAt_insertV_self, insertV_insertV_self,
        setPath_override rest (Value.map []) q v w]
    | seq l =>
      simp [setPath, childAt_insertV_self, insertV_insertV_self,
        setPath_override rest (Value.map []) q v w]

/-- Setting below a freshly set path rewrites inside the written value. -/
theorem setPath_inner : ∀ (p : List String) (d u : Value) (q : List String) (w : Value),
    setPath (setPath d p u) (p ++ q) w = setPath d p (setPath u q w)
  | [], _, _, _, _ => rfl
  | k :: rest, d, u, q, w => by
    cases d with
    | map l =>
      simp [setPath, childAt_insertV_self, insertV_insertV_self,
        setPath_inner rest (childAt l k) u q w]
    | str s =>
      simp [setPath, childAt_insertV_self, insertV_insertV_self,
        setPath_inner rest (Value.map []) u q w]
    | int n =>
      simp [setPath, childAt_insertV_self, insertV_insertV_self,
        setPath_inner rest (Value.map []) u q w]
    | seq l =>
      simp [setPath, childAt_insertV_self, insertV_insertV_self,
        setPath_inner rest (Value.map []) u q w]

/-- A sorted association list has a sorted tail. -/
theorem keysSorted_tail {kv : String × Value} {rest : List (String × Value)}
    (h : keysSorted (kv :: rest) = true) : keysSorted rest = true := by
  cases rest with
  | nil => rfl
  | cons kv₂ r =>
    rcases kv with ⟨k₀, v₀⟩
    rcases kv₂ with ⟨k₁, v₁⟩
    exact Bool.and_elim_right (by simpa [keysSorted] using h)

/-- The head key of a sorted association list is below every key of the tail. -/
theorem keysSorted_head_lt {k₀ : String} {v₀ : Value} :
    ∀ {rest : List (String × Value)}, keysSorted ((k₀, v₀) :: rest) = true →
      ∀ kv ∈ rest, keyLt k₀ kv.1 = true
  | [] => by intro _ kv hm; cases hm
  | (k₁, v₁) :: r => by
    intro h kv hm
    have h₁ : keyLt k₀ k₁ = true := Bool.and_elim_left (by simpa [keysSorted] using h)
    have h₂ : keysSorted ((k₁, v₁) :: r) = true := keysSorted_tail h
    cases hm with
    | head => exact h₁
    | tail _ hm₂ => exact keyLt_trans h₁ (keysSorted_head_lt h₂ kv hm₂)

/-- Lookup misses when the key is strictly below every key of the list. -/
theorem lookupV_none_of_lt {k : String} :
    ∀ {l : List (String × Value)}, (∀ kv ∈ l, keyLt k kv.1 = true) → lookupV k l = none
  | [] => by intro _; rfl
  | (k₂, v₂) :: rest => by
    intro h
    have hne : k₂ ≠ k := Ne.symm (keyLt_ne (h (k₂, v₂) (List.mem_cons_self _ _)))
    simp only [lookupV, if_neg hne]
    exact lookupV_none_of_lt (fun kv hm => h kv (List.mem_cons_of_mem _ hm))

/-- Reinserting the value already present in a sorted list changes nothing. -/
theorem insertV_lookup_sorted {k : String} {c : Value} :
    ∀ {l : List (String × Value)}, keysSorted l = true → lookupV k l = some c →
      insertV k c l = l
  | [] => by intro _ h; simp [lookupV] at h
  | (k₂, v₂) :: rest => by
    intro hs hl
    by_cases h : k = k₂
    · subst h
      rw [lookupV, if_pos rfl] at hl
      cases hl
      simp [insertV]
    · by_cases h₂ : keyLt k k₂ = true
      · exfalso
        have hrest : lookupV k rest = none :=
          lookupV_none_of_lt (fun kv hm => keyLt_trans h₂ (keysSorted_head_lt hs kv hm))
        rw [lookupV, if_neg (Ne.symm h), hrest] at hl
        cases hl
      · have hl₂ : lookupV k rest = some c := by
          rw [lookupV, if_neg (Ne.symm h)] at hl
          exact hl
        simp [insertV, h, h₂, insertV_lookup_sorted (keysSorted_tail hs) hl₂]

/-- Every value stored in a well-formed association list is well-formed. -/
theorem wfPairs_lookup {k : String} {c : Value} :
    ∀ {l : List (String × Value)}, wfPairs l = true → lookupV k l = some c → c.wf = true
  | [] => by intro _ h; simp [lookupV] at h
  | (k₂, v₂) :: rest => by
    intro hw hl
    have hw₁ : v₂.wf = true := Bool.and_elim_left (by simpa [wfPairs] using hw)
    have hw₂ : wfPairs rest = true := Bool.and_elim_right (by simpa [wfPairs] using hw)
    by_cases h : k₂ = k
    · rw [lookupV, if_pos h, Option.some.injEq] at hl
      exact hl ▸ hw₁
    · rw [lookupV, if_neg h] at hl
      exact wfPairs_lookup hw₂ hl

/-- A well-formed mapping has a sorted top-level association list. -/
theorem wf_map_sorted {l : List (String × Value)} (h : (Value.map l).wf = true) :
    keysSorted l = true :=
  Bool.and_elim_left (by simpa [Value.wf] using h)

/-- A well-formed mapping has well-formed stored values. -/
theorem wf_map_pairs {l : List (String × Value)} (h : (Value.map l).wf = true) :
    wfPairs l = true :=
  Bool.and_elim_right (by simpa [Value.wf] using h)

/-- Every value readable inside a well-formed value is well-formed. -/
theorem getPath_wf : ∀ (p : List String) (v : Value) {u : Value}, v.wf = true →
    getPath v p = some u → u.wf = true
  | [], v, u => by
    intro hw h
    cases h
    exact hw
  | k :: rest, v, u => by
    intro hw h
    cases v with
    | map l =>
      cases hl : lookupV k l with
      | some c =>
        rw [getPath, hl] at h
        exact getPath_wf rest c (wfPairs_lookup (wf_map_pairs hw) hl) h
      | none => rw [getPath, hl] at h; cases h
    | str s => cases h
    | int n => cases h
    | seq l => cases h

/-- Writing back the value already readable at a path leaves a well-formed
value unchanged. -/
theorem setPath_getPath_self : ∀ (q : List String) (u : Value) {w : Value}, u.wf = true →
    getPath u q = some w → setPath u q w = u
  | [], u, w => by
    intro _ h
    cases h
    rfl
  | k :: rest, u, w => by
    intro hw h
    cases u with
    | map l =>
      cases hl : lookupV k l with
      | some c =>
        rw [getPath, hl] at h
        have hcwf : c.wf = true := wfPairs_lookup (wf_map_pairs hw) hl
        rw [setPath, childAt_eq_of_lookup hl, setPath_getPath_self rest c hcwf h,
          insertV_lookup_sorted (wf_map_sorted hw) hl]
      | none => rw [getPath, hl] at h; cases h
    | str s => cases h
    | int n => cases h
    | seq l => cases h

/-- Reading at a path that diverges from a set path is unaffected by the set. -/
theorem getPath_setPath_diverge {a b : String} (hab : a ≠ b) :
    ∀ (r : List String) (d : Value) (s t : List String) (w : Value),
      getPath (setPath d (r ++ b :: t) w) (r ++ a :: s) = getPath d (r ++ a :: s)
  | [], d, s, t, w => by
    cases d with
    | map l => simp [setPath, getPath, lookupV_insertV_ne hab]
    | str x => simp [setPath, getPath, lookupV, insertV, Ne.symm hab]
    | int x => simp [setPath, getPath, lookupV, insertV, Ne.symm hab]
    | seq x => simp [setPath, getPath, lookupV, insertV, Ne.symm hab]
  | k :: r, d, s, t, w => by
    cases d with
    | map l =>
      simp only [List.cons_append, setPath, getPath, lookupV_insertV_self, List.append_eq]
      rw [getPath_setPath_diverge hab r (childAt l k) s t w]
      cases hl : lookupV k l with
      | some c => rw [childAt_eq_of_lookup hl]
      | none =>
        simp only [childAt, hl]
        cases r <;> simp [getPath, lookupV]
    | str x =>
      simp only [List.cons_append, setPath, getPath, lookupV_insertV_self, insertV,
        List.append_eq]
      simp only [lookupV, eq_self_iff_true, if_true]
      rw [getPath_setPath_diverge hab r (Value.map []) s t w]
      cases r <;> simp [getPath, lookupV]
    | int x =>
      simp only [List.cons_append, setPath, getPath, lookupV_insertV_self, insertV,
        List.append_eq]
      simp only [lookupV, eq_self_iff_true, if_true]
      rw [getPath_setPath_diverge hab r (Value.map []) s t w]
      cases r <;> simp [getPath, lookupV]
    | seq x =>
      simp only [List.cons_append, setPath, getPath, lookupV_insertV_self, insertV,
        List.append_eq]
      simp only [lookupV, eq_self_iff_true, if_true]
      rw [getPath_setPath_diverge hab r (Value.map []) s t w]
      cases r <;> simp [getPath, lookupV]

/-- Reading at a path above a deeper set finds the old value rewritten inside. -/
theorem getPath_setPath_above : ∀ (p : List String) (d : Value) {c : Value}
    (t : List String) (w : Value), getPath d p = some c →
      getPath (setPath d (p ++ t) w) p = some (setPath c t w)
  | [], d, c, t, w => by
    intro h
    cases h
    rfl
  | k :: rest, d, c, t, w => by
    intro h
    cases d with
    | map l =>
      cases hl : lookupV k l with
      | some c₀ =>
        rw [getPath, hl] at h
        simp only [List.cons_append, setPath, getPath, lookupV_insertV_self,
          childAt_eq_of_lookup hl]
        exact getPath_setPath_above rest c₀ t w h
      | none => rw [getPath, hl] at h; cases h
    | str s => cases h
    | int n => cases h
    | seq l => cases h

/-- Any two key paths extend one another or diverge at some key. -/
theorem path_rel : ∀ (p q : List String),
    (∃ t, q = p ++ t) ∨ (∃ t, p = q ++ t) ∨
      (∃ r a s b t, a ≠ b ∧ p = r ++ a :: s ∧ q = r ++ b :: t)
  | [], q => Or.inl ⟨q, rfl⟩
  | _ :: p, [] => Or.inr (Or.inl ⟨_ :: p, rfl⟩)
  | a :: p, b :: q => by
    by_cases hab : a = b
    · subst hab
      rcases path_rel p q with ⟨t, ht⟩ | ⟨t, ht⟩ | ⟨r, x, s, y, t, hxy, hp, hq⟩
      · exact Or.inl ⟨t, by rw [ht]; rfl⟩
      · exact Or.inr (Or.inl ⟨t, by rw [ht]; rfl⟩)
      · exact Or.inr (Or.inr ⟨a :: r, x, s, y, t, hxy, by rw [hp]; rfl, by rw [hq]; rfl⟩)
    · exact Or.inr (Or.inr ⟨[], a, p, b, q, hab, rfl, rfl⟩)

/-- Inserting into an empty association list makes a singleton. -/
theorem insertV_nil (k : String) (v : Value) : insertV k v [] = [(k, v)] := rfl

/-- The child at the head key of an association list. -/
theorem childAt_cons_self (k : String) (c : Value) (l : List (String × Value)) :
    childAt ((k, c) :: l) k = c := by
  simp [childAt, lookupV]

/-- Inserting at the head key replaces the head value. -/
theorem insertV_cons_self (k : String) (v c : Value) (l : List (String × Value)) :
    insertV k v ((k, c) :: l) = (k, v) :: l := by
  simp [insertV]

/-- Sets at diverging paths commute, whatever the destination. -/
theorem setPath_comm_diverge {a b : String} (hab : a ≠ b) :
    ∀ (r : List String) (d : Value) (s t : List String) (v w : Value),
      setPath (setPath d (r ++ a :: s) v) (r ++ b :: t) w
        = setPath (setPath d (r ++ b :: t) w) (r ++ a :: s) v
  | [], d, s, t, v, w => by
    cases d with
    | map l =>
      simp only [List.nil_append, setPath, childAt_insertV_ne (Ne.symm hab),
        childAt_insertV_ne hab]
      rw [insertV_comm (Ne.symm hab)]
    | str x =>
      simp only [List.nil_append, setPath, childAt, insertV, lookupV, if_neg hab,
        if_neg (Ne.symm hab)]
      rcases keyLt_total a b hab with h | h
      · simp [h, keyLt_asymm h]
      · simp [h, keyLt_asymm h]
    | int x =>
      simp only [List.nil_append, setPath, childAt, insertV, lookupV, if_neg hab,
        if_neg (Ne.symm hab)]
      rcases keyLt_total a b hab with h | h
      · simp [h, keyLt_asymm h]
      · simp [h, keyLt_asymm h]
    | seq x =>
      simp only [List.nil_append, setPath, childAt, insertV, lookupV, if_neg hab,
        if_neg (Ne.symm hab)]
      rcases keyLt_total a b hab with h | h
      · simp [h, keyLt_asymm h]
      · simp [h, keyLt_asymm h]
  | k :: r, d, s, t, v, w => by
    cases d with
    | map l =>
      simp only [List.cons_append, setPath, childAt_insertV_self, insertV_insertV_self,
        List.append_eq]
      rw [setPath_comm_diverge hab r (childAt l k) s t v w]
    | str x =>
      simp only [List.cons_append, setPath, insertV_nil, childAt_cons_self,
        insertV_cons_self, List.append_eq]
      rw [setPath_comm_diverge hab r (Value.map []) s t v w]
    | int x =>
      simp only [List.cons_append, setPath, insertV_nil, childAt_cons_self,
        insertV_cons_self, List.append_eq]
      rw [setPath_comm_diverge hab r (Value.map []) s t v w]
    | seq x =>
      simp only [List.cons_append, setPath, insertV_nil, childAt_cons_self,
        insertV_cons_self, List.append_eq]
      rw [setPath_comm_diverge hab r (Value.map []) s t v w]

/-- Sets of two values both read from one well-formed source commute,
whatever the destination. -/
theorem setPath_comm_of_getPath {s : Value} (hwf : s.wf = true) {p q : List String}
    {v w : Value} (hp : getPath s p = some v) (hq : getPath s q = some w) (d₀ : Value) :
    setPath (setPath d₀ p v) q w = setPath (setPath d₀ q w) p v := by
  rcases path_rel p q with ⟨t, ht⟩ | ⟨t, ht⟩ | ⟨r, a, s₂, b, t, hab, hpe, hqe⟩
  · subst ht
    have hvt : getPath v t = some w := by
      rw [getPath_append, hp] at hq
      simpa using hq
    have hvwf : v.wf = true := getPath_wf p s hwf hp
    rw [setPath_inner, setPath_getPath_self t v hvwf hvt, setPath_override]
  · subst ht
    have hwt : getPath w t = some v := by
      rw [getPath_append, hq] at hp
      simpa using hp
    have hwwf : w.wf = true := getPath_wf q s hwf hq
    rw [setPath_inner, setPath_getPath_self t w hwwf hwt, setPath_override]
  · subst hpe hqe
    exact setPath_comm_diverge hab r d₀ s₂ t v w

/-- A retain step over a nil source section does nothing. -/
theorem retainStep_none (d : Option Value) (p : List String) : retainStep none d p = d := rfl

/-- Retaining from a nil source section yields a nil section. -/
theorem retainSection_none : ∀ paths, retainSection paths none = none
  | [] => rfl
  | _ :: rest => retainSection_none rest

/-- Two retain steps over the same well-formed source section commute. -/
theorem retainStep_comm {s : Value} (hwf : s.wf = true) (d : Option Value)
    (p q : List String) :
    retainStep (some s) (retainStep (some s) d p) q
      = retainStep (some s) (retainStep (some s) d q) p := by
  cases hp : getPath s p with
  | none =>
    cases hq : getPath s q with
    | none => simp [retainStep, getOpt, hp, hq]
    | some w => simp [retainStep, getOpt, hp, hq]
  | some v =>
    cases hq : getPath s q with
    | none => simp [retainStep, getOpt, hp, hq]
    | some w =>
      simp only [retainStep, getOpt, hp, hq, Option.getD_some, Option.some.injEq]
      exact setPath_comm_of_getPath hwf hp hq (d.getD (Value.map []))

/-- A fold by a self-commuting step function is invariant under permutation
of the folded list. -/
theorem foldl_perm_of_comm {α β : Type} {f : β → α → β}
    (hc : ∀ d a b, f (f d a) b = f (f d b) a) :
    ∀ {l₁ l₂ : List α}, l₁.Perm l₂ → ∀ d, l₁.foldl f d = l₂.foldl f d := by
  intro l₁ l₂ hp
  induction hp with
  | nil => intro _; rfl
  | cons x _ ih => intro d; exact ih (f d x)
  | swap x y l => intro d; simp only [List.foldl]; rw [hc]
  | trans _ _ ih₁ ih₂ => intro d; rw [ih₁ d, ih₂ d]

/-- Retaining by any permutation of the configured paths yields the same
section, for a well-formed source section. -/
theorem retainSection_perm {paths₁ paths₂ : List (List String)} (hp : paths₁.Perm paths₂)
    {src : Option Value} (hwf : (src.getD (Value.map [])).wf = true) :
    retainSection paths₁ src = retainSection paths₂ src := by
  cases src with
  | none => rw [retainSection_none, retainSection_none]
  | some s =>
    have hs : s.wf = true := by simpa using hwf
    exact foldl_perm_of_comm (fun d a b => retainStep_comm hs d a b) hp none

/-- The per-section retain result is invariant under permutation of the
whole configured Field list. -/
theorem retainSectionOf_perm {fields₁ fields₂ : List Field} (hp : fields₁.Perm fields₂)
    (s : EntrySection) {src : Option Value} (hwf : (src.getD (Value.map [])).wf = true) :
    retainSectionOf fields₁ s src = retainSectionOf fields₂ s src := by
  have hpp : (pathsFor fields₁ s).Perm (pathsFor fields₂ s) := by
    simp only [pathsFor]
    exact List.Perm.map Field.keys (List.Perm.filter _ hp)
  unfold retainSectionOf
  by_cases h : pathsFor fields₁ s = []
  · have h₂ : pathsFor fields₂ s = [] := by
      rw [h] at hpp
      exact hpp.symm.eq_nil
    rw [if_pos h, if_pos h₂]
  · have h₂ : pathsFor fields₂ s ≠ [] := by
      intro hc
      rw [hc] at hpp
      exact h hpp.eq_nil
    rw [if_neg h, if_neg h₂, retainSection_perm hpp hwf]

/-- The body section of a well-formed Entry is well-formed. -/
theorem Entry.wf_body {e : Entry} (h : e.wf = true) :
    (e.body.getD (Value.map [])).wf = true := by
  have h₂ := h
  simp only [Entry.wf, Bool.and_eq_true] at h₂
  exact h₂.1.1

/-- The attributes section of a well-formed Entry is well-formed. -/
theorem Entry.wf_attributes {e : Entry} (h : e.wf = true) :
    (e.attributes.getD (Value.map [])).wf = true := by
  have h₂ := h
  simp only [Entry.wf, Bool.and_eq_true] at h₂
  exact h₂.1.2

/-- The resource section of a well-formed Entry is well-formed. -/
theorem Entry.wf_resource {e : Entry} (h : e.wf = true) :
    (e.resource.getD (Value.map [])).wf = true := by
  have h₂ := h
  simp only [Entry.wf, Bool.and_eq_true] at h₂
  exact h₂.2

/-- Reading inside the empty mapping at a nonempty path misses. -/
theorem getPath_empty_map (k : String) (p : List String) :
    getPath (Value.map []) (k :: p) = none := by
  simp [getPath, lookupV]

/-- A retain step never creates a path that misses in the source section. -/
theorem retainStep_keep_none {s : Value} {d : Option Value} {q : List String}
    (hinv : ∀ p, getPath s p = none → getOpt d p = none) :
    ∀ p, getPath s p = none → getOpt (retainStep (some s) d q) p = none := by
  intro p hp
  cases hq : getPath s q with
  | none => simpa [retainStep, getOpt, hq] using hinv p hp
  | some w =>
    simp only [retainStep, getOpt, hq]
    rcases path_rel p q with ⟨t, ht⟩ | ⟨t, ht⟩ | ⟨r, a, s₂, b, t, hab, hpe, hqe⟩
    · subst ht
      rw [getPath_append, hp] at hq
      simp at hq
    · subst ht
      rw [getPath_setPath_append]
      rw [getPath_append, hq] at hp
      simpa using hp
    · subst hpe hqe
      rw [getPath_setPath_diverge hab]
      have hd := hinv _ hp
      cases d with
      | none =>
        cases r with
        | nil => exact getPath_empty_map a s₂
        | cons k r₂ => exact getPath_empty_map k (r₂ ++ a :: s₂)
      | some dv => simpa [getOpt] using hd

/-- A retain step keeps every source-coherent value already present in the
destination. -/
theorem retainStep_keep_some {s : Value} (hwf : s.wf = true) {d : Option Value}
    {q p : List String} {v : Value} (hp : getPath s p = some v)
    (hd : getOpt d p = some v) :
    getOpt (retainStep (some s) d q) p = some v := by
  cases hq : getPath s q with
  | none => simpa [retainStep, getOpt, hq] using hd
  | some w =>
    simp only [retainStep, getOpt, hq]
    have hD : getPath (d.getD (Value.map [])) p = some v := by
      cases d with
      | none => simp [getOpt] at hd
      | some dv => simpa [getOpt] using hd
    rcases path_rel p q with ⟨t, ht⟩ | ⟨t, ht⟩ | ⟨r, a, s₂, b, t, hab, hpe, hqe⟩
    · subst ht
      rw [getPath_setPath_above p (d.getD (Value.map [])) t w hD]
      have hvt : getPath v t = some w := by
        rw [getPath_append, hp] at hq
        simpa using hq
      rw [setPath_getPath_self t v (getPath_wf p s hwf hp) hvt]
    · subst ht
      rw [getPath_setPath_append]
      rw [getPath_append, hq] at hp
      simpa using hp
    · subst hpe hqe
      rw [getPath_setPath_diverge hab]
      exact hD

/-- A retain step installs its own path when the source has it. -/
theorem retainStep_own {s : Value} {p : List String} {v : Value}
    (hp : getPath s p = some v) (d : Option Value) :
    getOpt (retainStep (some s) d p) p = some v := by
  simp [retainStep, getOpt, hp, getPath_setPath_self]

/-- Missing source paths stay missing through the whole retain fold. -/
theorem retainFold_keep_none {s : Value} :
    ∀ (l : List (List String)) (d : Option Value),
      (∀ p, getPath s p = none → getOpt d p = none) →
      ∀ p, getPath s p = none → getOpt (l.foldl (retainStep (some s)) d) p = none
  | [], _, hinv => hinv
  | _ :: rest, _, hinv =>
    retainFold_keep_none rest _ (retainStep_keep_none hinv)

/-- A source path whose value is present, or which is still to be
processed, ends up present with the source's value after the retain fold. -/
theorem retainFold_some {s : Value} (hwf : s.wf = true) :
    ∀ (l : List (List String)) (d : Option Value) (p : List String) (v : Value),
      getPath s p = some v → (p ∈ l ∨ getOpt d p = some v) →
      getOpt (l.foldl (retainStep (some s)) d) p = some v
  | [], d, p, v => by
    intro hp hmem
    rcases hmem with h | h
    · cases h
    · exact h
  | q :: rest, d, p, v => by
    intro hp hmem
    by_cases hpq : p = q
    · subst hpq
      exact retainFold_some hwf rest _ p v hp (Or.inr (retainStep_own hp d))
    · rcases hmem with h | h
      · rcases List.mem_cons.mp h with h₁ | h₁
        · exact absurd h₁ hpq
        · exact retainFold_some hwf rest _ p v hp (Or.inl h₁)
      · exact retainFold_some hwf rest _ p v hp (Or.inr (retainStep_keep_some hwf hp h))

/-- Folds by step functions that agree on the folded elements agree. -/
theorem foldl_congr_mem {α β : Type} {f g : β → α → β} :
    ∀ {l : List α}, (∀ a ∈ l, ∀ d, f d a = g d a) → ∀ d, l.foldl f d = l.foldl g d
  | [], _, _ => rfl
  | a :: rest, h, d => by
    simp only [List.foldl]
    rw [h a (List.mem_cons_self a rest) d]
    exact foldl_congr_mem (fun x hx d₂ => h x (List.mem_cons_of_mem _ hx) d₂) _

/-- Retaining a section twice by the same paths equals retaining it once,
for a well-formed source section. -/
theorem retainSection_idem {paths : List (List String)} {src : Option Value}
    (hwf : (src.getD (Value.map [])).wf = true) :
    retainSection paths (retainSection paths src) = retainSection paths src := by
  cases src with
  | none => rw [retainSection_none, retainSection_none]
  | some s =>
    have hs : s.wf = true := by simpa using hwf
    cases hR : retainSection paths (some s) with
    | none => exact retainSection_none paths
    | some D =>
      have hagree : ∀ p ∈ paths, getPath D p = getPath s p := by
        intro p hmem
        cases hp : getPath s p with
        | none =>
          have h := retainFold_keep_none paths none (fun _ _ => rfl) p hp
          rw [retainSection] at hR
          rw [hR] at h
          simpa [getOpt] using h
        | some v =>
          have h := retainFold_some hs paths none p v hp (Or.inl hmem)
          rw [retainSection] at hR
          rw [hR] at h
          simpa [getOpt] using h
      conv_rhs => rw [← hR]
      unfold retainSection
      exact foldl_congr_mem
        (fun q hq d => by simp only [retainStep, getOpt, hagree q hq]) none

/-- Retaining one section twice by the whole Field list equals retaining it
once, for a well-formed source section. -/
theorem retainSectionOf_idem (fields : List Field) (s : EntrySection) {src : Option Value}
    (hwf : (src.getD (Value.map [])).wf = true) :
    retainSectionOf fields s (retainSectionOf fields s src) = retainSectionOf fields s src := by
  unfold retainSectionOf
  by_cases h : pathsFor fields s = []
  · rw [if_pos h, if_pos h]
  · rw [if_neg h, if_neg h, retainSection_idem hwf]

/-- Entries with equal fields are equal. -/
theorem Entry.eq_of_fields {e₁ e₂ : Entry} (h₁ : e₁.timestamp = e₂.timestamp)
    (h₂ : e₁.observedTimestamp = e₂.observedTimestamp) (h₃ : e₁.body = e₂.body)
    (h₄ : e₁.attributes = e₂.attributes) (h₅ : e₁.resource = e₂.resource) : e₁ = e₂ := by
  cases e₁
  cases e₂
  simp_all

/-- The per-section shape of the retain transform. -/
theorem retainTransform_getSection (fields : List Field) (e : Entry) (s : EntrySection) :
    (retainTransform fields e).getSection s = retainSectionOf fields s (e.getSection s) := by
  cases s <;> rfl

/-- Retaining a section every one of whose configured paths misses in the
source yields a nil section. -/
theorem retainFold_all_missed {src : Option Value} :
    ∀ (l : List (List String)), (∀ p ∈ l, getOpt src p = none) →
      l.foldl (retainStep src) none = none
  | [], _ => rfl
  | q :: rest, h => by
    have hq : getOpt src q = none := h q (List.mem_cons_self _ _)
    simp only [List.foldl, retainStep, hq]
    exact retainFold_all_missed rest (fun p hp => h p (List.mem_cons_of_mem _ hp))

/-- C3: for the retain transform configured to keep Body paths [foo] and
[one, two], an Entry with Body made of foo: bar, one: (two: (keepme: 1),
deleteme: yes), hello: world is processed without error into an Entry whose
Body keeps foo: bar and, under the shared ancestor mapping one, only the
retained subtree two: (keepme: 1); all other keys are discarded and the
other sections are untouched. -/
theorem retain_multilevel_example :
    retainProcess
      [⟨EntrySection.body, [("foo")]⟩, ⟨EntrySection.body, [("one"), ("two")]⟩]
      ⟨0, 0,
        some (Value.map
          [(("foo"), Value.str ("bar")),
           (("hello"), Value.str ("world")),
           (("one"), Value.map
              [(("deleteme"), Value.str ("yes")),
               (("two"), Value.map [(("keepme"), Value.int 1)])])]),
        none, none⟩ =
    Except.ok
      ⟨0, 0,
        some (Value.map
          [(("foo"), Value.str ("bar")),
           (("one"), Value.map [(("two"), Value.map [(("keepme"), Value.int 1)])])]),
        none, none⟩ := rfl

/-- C4: the retain transform is order-independent — for every well-formed
input Entry and configured Field list, any permutation of the Field list
produces an identical output Entry. -/
theorem retain_order_independent (fields₁ fields₂ : List Field) (e : Entry)
    (hwf : e.wf = true) (hp : fields₁.Perm fields₂) :
    retainTransform fields₁ e = retainTransform fields₂ e := by
  refine Entry.eq_of_fields rfl rfl ?_ ?_ ?_
  · exact retainSectionOf_perm hp EntrySection.body (Entry.wf_body hwf)
  · exact retainSectionOf_perm hp EntrySection.attributes (Entry.wf_attributes hwf)
  · exact retainSectionOf_perm hp EntrySection.resource (Entry.wf_resource hwf)

/-- Witness for C4, on the two-field Body configuration of the
retain-multi scenario. -/
theorem retain_order_independent_witness :
    (⟨0, 0,
        some (Value.map
          [(("key"), Value.str ("val")),
           (("nested"), Value.map [(("nestedkey"), Value.str ("nestedval"))]),
           (("nested2"), Value.map [(("nestedkey"), Value.str ("nestedval"))])]),
        none, none⟩ : Entry).wf = true ∧
      List.Perm
        [(⟨EntrySection.body, [("key")]⟩ : Field), ⟨EntrySection.body, [("nested2")]⟩]
        [⟨EntrySection.body, [("nested2")]⟩, ⟨EntrySection.body, [("key")]⟩] ∧
      retainTransform
        [⟨EntrySection.body, [("key")]⟩, ⟨EntrySection.body, [("nested2")]⟩]
        ⟨0, 0,
          some (Value.map
            [(("key"), Value.str ("val")),
             (("nested"), Value.map [(("nestedkey"), Value.str ("nestedval"))]),
             (("nested2"), Value.map [(("nestedkey"), Value.str ("nestedval"))])]),
          none, none⟩ =
      retainTransform
        [⟨EntrySection.body, [("nested2")]⟩, ⟨EntrySection.body, [("key")]⟩]
        ⟨0, 0,
          some (Value.map
            [(("key"), Value.str ("val")),
             (("nested"), Value.map [(("nestedkey"), Value.str ("nestedval"))]),
             (("nested2"), Value.map [(("nestedkey"), Value.str ("nestedval"))])]),
          none, none⟩ :=
  ⟨rfl, List.Perm.swap _ _ _,
    retain_order_independent _ _ _ rfl (List.Perm.swap _ _ _)⟩

/-- C5: the retain transform is idempotent — for every well-formed input
Entry and fixed Field configuration, applying the transform twice yields
the same Entry as applying it once. -/
theorem retain_idempotent (fields : List Field) (e : Entry) (hwf : e.wf = true) :
    retainTransform fields (retainTransform fields e) = retainTransform fields e := by
  refine Entry.eq_of_fields rfl rfl ?_ ?_ ?_
  · exact retainSectionOf_idem fields EntrySection.body (Entry.wf_body hwf)
  · exact retainSectionOf_idem fields EntrySection.attributes (Entry.wf_attributes hwf)
  · exact retainSectionOf_idem fields EntrySection.resource (Entry.wf_resource hwf)

/-- Witness for C5, on the multilevel Body scenario. -/
theorem retain_idempotent_witness :
    (⟨0, 0,
        some (Value.map
          [(("foo"), Value.str ("bar")),
           (("hello"), Value.str ("world")),
           (("one"), Value.map
              [(("deleteme"), Value.str ("yes")),
               (("two"), Value.map [(("keepme"), Value.int 1)])])]),
        none, none⟩ : Entry).wf = true ∧
      retainTransform
        [⟨EntrySection.body, [("foo")]⟩, ⟨EntrySection.body, [("one"), ("two")]⟩]
        (retainTransform
          [⟨EntrySection.body, [("foo")]⟩, ⟨EntrySection.body, [("one"), ("two")]⟩]
          ⟨0, 0,
            some (Value.map
              [(("foo"), Value.str ("bar")),
               (("hello"), Value.str ("world")),
               (("one"), Value.map
                  [(("deleteme"), Value.str ("yes")),
                   (("two"), Value.map [(("keepme"), Value.int 1)])])]),
            none, none⟩) =
      retainTransform
        [⟨EntrySection.body, [("foo")]⟩, ⟨EntrySection.body, [("one"), ("two")]⟩]
        ⟨0, 0,
          some (Value.map
            [(("foo"), Value.str ("bar")),
             (("hello"), Value.str ("world")),
             (("one"), Value.map
                [(("deleteme"), Value.str ("yes")),
                 (("two"), Value.map [(("keepme"), Value.int 1)])])]),
          none, none⟩ :=
  ⟨rfl, retain_idempotent _ _ rfl⟩

/-- C6: for every Entry and every section with at least one configured
retain Field, if every configured path for that section misses in the
source, the retain transform sets that section to nil and Process returns
no error; a missing path is skipped, never an error. -/
theorem retain_all_missed_nil_section (fields : List Field) (e : Entry) (s : EntrySection)
    (hne : pathsFor fields s ≠ [])
    (hmiss : ∀ p ∈ pathsFor fields s, getOpt (e.getSection s) p = none) :
    (retainTransform fields e).getSection s = none ∧
      retainProcess fields e = Except.ok (retainTransform fields e) := by
  constructor
  · rw [retainTransform_getSection]
    unfold retainSectionOf
    rw [if_neg hne]
    exact retainFold_all_missed (pathsFor fields s) hmiss
  · rfl

/-- Witness for C6, on the retain-a-nonexistent-key scenario. -/
theorem retain_all_missed_nil_section_witness :
    pathsFor [(⟨EntrySection.body, [("aNonExsistentKey")]⟩ : Field)] EntrySection.body ≠ [] ∧
      (∀ p ∈ pathsFor [(⟨EntrySection.body, [("aNonExsistentKey")]⟩ : Field)]
          EntrySection.body,
        getOpt ((⟨0, 0,
          some (Value.map
            [(("key"), Value.str ("val")),
             (("nested"), Value.map [(("nestedkey"), Value.str ("nestedval"))])]),
          none, none⟩ : Entry).getSection EntrySection.body) p = none) ∧
      (retainTransform [⟨EntrySection.body, [("aNonExsistentKey")]⟩]
        ⟨0, 0,
          some (Value.map
            [(("key"), Value.str ("val")),
             (("nested"), Value.map [(("nestedkey"), Value.str ("nestedval"))])]),
          none, none⟩).getSection EntrySection.body = none :=
  ⟨fun h => List.noConfusion h,
    fun p hp => by
      have hp₂ : p ∈ [[("aNonExsistentKey")]] := hp
      rw [List.mem_singleton] at hp₂
      subst hp₂
      rfl,
    (retain_all_missed_nil_section
      [⟨EntrySection.body, [("aNonExsistentKey")]⟩]
      ⟨0, 0,
        some (Value.map
          [(("key"), Value.str ("val")),
           (("nested"), Value.map [(("nestedkey"), Value.str ("nestedval"))])]),
        none, none⟩
      EntrySection.body
      (fun h => List.noConfusion h)
      (fun p hp => by
        have hp₂ : p ∈ [[("aNonExsistentKey")]] := hp
        rw [List.mem_singleton] at hp₂
        subst hp₂
        rfl)).1⟩

/-- C7: every section for which no retain Field is configured is left
exactly as it was (nil stays nil), and each section's result depends only
on the Fields configured for that section. -/
theorem retain_untouched_section (fields₁ : List Field) (e : Entry) (s : EntrySection) :
    (pathsFor fields₁ s = [] → (retainTransform fields₁ e).getSection s = e.getSection s) ∧
      (∀ fields₂ : List Field, pathsFor fields₁ s = pathsFor fields₂ s →
        (retainTransform fields₁ e).getSection s = (retainTransform fields₂ e).getSection s) := by
  constructor
  · intro h
    rw [retainTransform_getSection]
    unfold retainSectionOf
    rw [if_pos h]
  · intro fields₂ h
    rw [retainTransform_getSection, retainTransform_getSection]
    unfold retainSectionOf
    rw [h]

/-- Witness for C7: a single-attribute configuration leaves the Body
section untouched, and the Body result agrees with the empty
configuration's. -/
theorem retain_untouched_section_witness :
    (retainTransform [(⟨EntrySection.attributes, [("key")]⟩ : Field)]
        ⟨0, 0, some (Value.str ("line")), some (Value.map [(("key"), Value.str ("val"))]),
          none⟩).getSection EntrySection.body =
      (⟨0, 0, some (Value.str ("line")), some (Value.map [(("key"), Value.str ("val"))]),
          none⟩ : Entry).getSection EntrySection.body ∧
      (retainTransform [(⟨EntrySection.attributes, [("key")]⟩ : Field)]
          ⟨0, 0, some (Value.str ("line")), some (Value.map [(("key"), Value.str ("val"))]),
            none⟩).getSection EntrySection.body =
        (retainTransform []
          ⟨0, 0, some (Value.str ("line")), some (Value.map [(("key"), Value.str ("val"))]),
            none⟩).getSection EntrySection.body :=
  ⟨(retain_untouched_section [⟨EntrySection.attributes, [("key")]⟩]
      ⟨0, 0, some (Value.str ("line")), some (Value.map [(("key"), Value.str ("val"))]),
        none⟩ EntrySection.body).1 rfl,
    (retain_untouched_section [⟨EntrySection.attributes, [("key")]⟩]
      ⟨0, 0, some (Value.str ("line")), some (Value.map [(("key"), Value.str ("val"))]),
        none⟩ EntrySection.body).2 [] rfl⟩

/-- C1 counterexample: for a built-but-never-started stdin input operator,
Stop does not return nil — it calls the nil cancel function and panics. -/
theorem stdin_stop_never_started_panics :
    Stdin.stop Stdin.build = Stdin.StopOutcome.panicNilCancel := rfl

/-- C1 amended: once Start has been called on a built stdin input operator
(even a Start that returned an error, since the cancel function is assigned
before the stat check), Stop returns nil, and does so on every further
call since Stop leaves the operator state unchanged. -/
theorem stdin_stop_after_start_ok (g : Stdin.Input) (st : Stdin.StatResult) :
    Stdin.stop (Stdin.start g st).1 = Stdin.StopOutcome.returnsNil := by
  cases st with
  | statError msg => rfl
  | stat b => cases b <;> rfl

/-- C9: a stdin input operator whose stdin stream is not a named pipe
starts without error, logs the idle warning, launches no reading goroutine,
and produces no Entries. -/
theorem stdin_start_not_pipe :
    (Stdin.start Stdin.build (Stdin.StatResult.stat false)).2 = Except.ok () ∧
      (Stdin.start Stdin.build (Stdin.StatResult.stat false)).1.goroutineLaunched = false ∧
      (Stdin.start Stdin.build (Stdin.StatResult.stat false)).1.warnings
        = [("No data is being written to stdin")] ∧
      ∀ (now : Int) (lines : List String),
        Stdin.entries (Stdin.start Stdin.build (Stdin.StatResult.stat false)).1 now lines
          = [] :=
  ⟨rfl, rfl, rfl, fun _ _ => rfl⟩

/-- C10: when statting stdin fails, Start returns an error wrapping the
stat failure before launching any goroutine, so that Start call never
produces Entries; the cancel function is nevertheless assigned before the
stat check. -/
theorem stdin_start_stat_error (msg : String) :
    (Stdin.start Stdin.build (Stdin.StatResult.statError msg)).2
        = Except.error (("failed to stat stdin: ") ++ msg) ∧
      (Stdin.start Stdin.build (Stdin.StatResult.statError msg)).1.goroutineLaunched = false ∧
      (Stdin.start Stdin.build (Stdin.StatResult.statError msg)).1.cancelAssigned = true ∧
      ∀ (now : Int) (lines : List String),
        Stdin.entries (Stdin.start Stdin.build (Stdin.StatResult.statError msg)).1 now lines
          = [] :=
  ⟨rfl, rfl, rfl, fun _ _ => rfl⟩

/-- C2 counterexample: for a TCP input configuration with TLS whose
certificate and key files do not exist, Build does not succeed — it
returns the load error, as the in-source TestBuild case
tls-enabled-with-no-such-file-error requires. -/
theorem tcp_build_missing_tls_counterexample :
    (TCP.build ⟨(":0"), 0, some ⟨("/tmp/cert/missing"), ("/tmp/key/missing")⟩⟩
      (fun _ => false)).isOk = false := rfl

/-- C2 amended: for a TCP input operator configured with TLS whose
certificate or key file does not exist, the failure is reported as an
error returned from Build (never a panic), so such a configuration never
reaches Start. -/
theorem tcp_build_missing_tls_errors (c : TCP.Config) (t : TCP.TLSConfig)
    (fs : String → Bool) (htls : c.tls = some t)
    (hmiss : fs t.certFile = false ∨ fs t.keyFile = false) :
    ∃ msg, TCP.build c fs = Except.error msg := by
  unfold TCP.build
  by_cases hneg : c.maxLogSize < 0
  · rw [if_pos hneg]
    exact ⟨_, rfl⟩
  · have hcc : (fs t.certFile && fs t.keyFile) = false := by
      rcases hmiss with h | h <;> simp [h]
    rw [if_neg hneg, htls]
    simp only [hcc]
    exact ⟨_, rfl⟩

/-- Witness for C2's amended theorem on a concrete configuration with both
TLS files missing. -/
theorem tcp_build_missing_tls_errors_witness :
    (⟨(":0"), 0, some ⟨("/tmp/cert/missing"), ("/tmp/key/missing")⟩⟩ : TCP.Config).tls
        = some ⟨("/tmp/cert/missing"), ("/tmp/key/missing")⟩ ∧
      ((fun _ => false) : String → Bool) ("/tmp/cert/missing") = false ∧
      ∃ msg, TCP.build ⟨(":0"), 0, some ⟨("/tmp/cert/missing"), ("/tmp/key/missing")⟩⟩
        (fun _ => false) = Except.error msg :=
  ⟨rfl, rfl, tcp_build_missing_tls_errors _ _ _ rfl (Or.inl rfl)⟩

/-- C8: on one accepted TCP connection, the bytes of one newline-terminated
line produce exactly one Entry whose Body is the line with the newline
stripped, and a carriage-return/newline terminated line likewise has both
terminator bytes stripped, with no extra Entry. -/
theorem tcp_line_terminators (now : Int) :
    TCP.entries now ("message\n") = [lineEntry now ("message")] ∧
      TCP.entries now ("message\r\n") = [lineEntry now ("message")] :=
  ⟨rfl, rfl⟩

end OTelStanza
